import Mathlib

/-!
Shallow embedding of the core of the chatgpt-convo-viewer repository:
conversation normalization (`extractMessages`, `normalizeConversations`),
chat match scanning and navigation, corpus snippet building, the
asynchronous index-build state machine with its generation counter, and
the highlight segmenter.  JavaScript strings are modelled as `List Char`,
JSON numbers as `Int`, and nullable values as `Option`.
-/

namespace ChatView

/-- JavaScript strings are modelled as lists of characters. -/
abbrev Str := List Char

/-- Model of `String.prototype.toLowerCase` (ASCII case folding). -/
def jsToLower (s : Str) : Str := s.map Char.toLower

/-- Model of `String.prototype.trim`: strip whitespace from both ends. -/
def jsTrim (s : Str) : Str :=
  ((s.dropWhile Char.isWhitespace).reverse.dropWhile Char.isWhitespace).reverse

/-- Test that `needle` occurs in `hay` starting at position `i`. -/
def occursAt (hay needle : Str) (i : Nat) : Bool :=
  needle.isPrefixOf (hay.drop i)

/-- Model of `String.prototype.indexOf(needle, start)` for `start ≤ hay.length`:
the least position `≥ start` at which `needle` occurs (`none` for JS's `-1`). -/
def jsIndexOfFrom (hay needle : Str) (start : Nat) : Option Nat :=
  (List.range (hay.length + 1)).find? (fun i => decide (start ≤ i) && occursAt hay needle i)

/-- Model of `String.prototype.slice` with integer arguments
(negative arguments count from the end, then both are clamped). -/
def jsSlice (s : Str) (a b : Int) : Str :=
  let lo := (if a < 0 then max 0 ((s.length : Int) + a) else min a (s.length : Int)).toNat
  let hi := (if b < 0 then max 0 ((s.length : Int) + b) else min b (s.length : Int)).toNat
  (s.take hi).drop lo

/-- Model of `slice` specialized to the in-range non-negative case. -/
def sliceNat (s : Str) (a b : Nat) : Str := (s.take b).drop a

/-- The `message` payload of a mapping node: `author.role`, `create_time`,
`content.parts` (absent or non-array `parts` is modelled as `none`). -/
structure MessagePayload where
  authorRole : Option Str
  createTime : Option Int
  parts : Option (List Str)
deriving DecidableEq, Repr

/-- A value of `conversation.mapping`: `{ id, message }`. -/
structure MappingNode where
  id : Option Str
  message : Option MessagePayload
deriving DecidableEq, Repr

/-- The fields of a conversation used by the core: `title` and the list of
mapping nodes in object-iteration order (`Object.values(conversation.mapping ?? {})`). -/
structure Conversation where
  title : Option Str
  mapping : List MappingNode
deriving DecidableEq, Repr

/-- Derived message text: `parts.map(String).join('\n').trim()`. -/
def messageText (m : MessagePayload) : Str :=
  jsTrim (List.intercalate ['\n'] (m.parts.getD []))

/-- Character `'0'..'9'` for a decimal digit. -/
def digitChar (d : Nat) : Char := Char.ofNat (48 + d)

/-- Little-endian decimal digits, by structural recursion on fuel so that the
kernel can evaluate it; `natDigits_eq_digits` identifies it with
`Nat.digits 10`. -/
def natDigitsAux : Nat → Nat → List Nat
  | 0, _ => []
  | _ + 1, 0 => []
  | fuel + 1, n + 1 => (n + 1) % 10 :: natDigitsAux fuel ((n + 1) / 10)

/-- Little-endian decimal digits of `n`. -/
def natDigits (n : Nat) : List Nat := natDigitsAux n n

/-- Decimal rendering of a natural number (model of JS number → string for
non-negative integers). -/
def natRepr (n : Nat) : Str :=
  if n = 0 then ['0'] else ((natDigits n).map digitChar).reverse

/-- Decimal rendering of an integer. -/
def intRepr (i : Int) : Str :=
  if i < 0 then '-' :: natRepr i.natAbs else natRepr i.toNat

/-- One displayed message, from `conversations-utils.ts`:
`{ id: node?.id ?? message?.create_time?.toString() ?? "message", authorRole, createTime, text }`. -/
structure DisplayMessage where
  id : Str
  authorRole : Option Str
  createTime : Option Int
  text : Str
deriving DecidableEq, Repr

/-- The body of the `.map` in `extractMessages`: `none` for nodes without a
`message`, otherwise the derived `DisplayMessage`. -/
def displayOf (node : MappingNode) : Option DisplayMessage :=
  match node.message with
  | none => none
  | some m =>
    some { id := node.id.getD ((m.createTime.map intRepr).getD ("message".toList)),
           authorRole := m.authorRole,
           createTime := m.createTime,
           text := messageText m }

/-- Sort key of `extractMessages`: `createTime ?? 0`. -/
def sortKey (d : DisplayMessage) : Int := d.createTime.getD 0

/-- Model of `extractMessages`: keep nodes with a message, derive display messages,
stable-sort ascending by `createTime ?? 0` (JS `Array.prototype.sort` is
stable; `List.mergeSort` is the stable sort). -/
def extractMessages (c : Conversation) : List DisplayMessage :=
  (c.mapping.filterMap displayOf).mergeSort (fun a b => decide (sortKey a ≤ sortKey b))

/-- One in-chat match: `{ messageId, start, end }`. -/
structure ChatMatch where
  messageId : Str
  start : Nat
  «end» : Nat
deriving DecidableEq, Repr

/-- The inner `while` loop of the chat match effect: scan `hay` for `needle`
from position `i`, recording `{messageId, start, end}` and advancing the
cursor to the end of each occurrence.  The loop runs while `i < hay.length`
and advances the cursor by at least one per found occurrence (the query is
non-empty there), so `hay.length + 1` units of fuel are enough for the model
to agree with the source loop wherever the source terminates. -/
def scanMessageAux (needle msgId : Str) (hay : Str) (i fuel : Nat) : List ChatMatch :=
  match fuel with
  | 0 => []
  | fuel' + 1 =>
    if i < hay.length then
      match jsIndexOfFrom hay needle i with
      | none => []
      | some found =>
        ⟨msgId, found, found + needle.length⟩ ::
          scanMessageAux needle msgId hay (found + needle.length) fuel'
    else []

/-- All matches of the (already trimmed and lower-cased) query inside one
message: scan the lower-cased text with a forward cursor. -/
def messageMatches (needle : Str) (m : DisplayMessage) : List ChatMatch :=
  scanMessageAux needle m.id (jsToLower m.text) 0 (m.text.length + 1)

/-- The chat match effect: empty trimmed query yields no matches, otherwise
messages are scanned in display order and the per-message match lists are
concatenated. -/
def findMatches (msgs : List DisplayMessage) (query : Str) : List ChatMatch :=
  let trimmed := jsToLower (jsTrim query)
  if trimmed.isEmpty then [] else msgs.flatMap (fun m => messageMatches trimmed m)

/-- Navigation state of the chat search: the match array and the active index
(`-1` when there is no active match). -/
structure ChatNav where
  «matches» : List ChatMatch
  activeMatchIndex : Int
deriving DecidableEq, Repr

/-- The `nextMatch` action: no-op on an empty match array, else advance with
wraparound from the last index to `0`. -/
def nextMatch (s : ChatNav) : ChatNav :=
  if s.«matches».length = 0 then s
  else { s with activeMatchIndex :=
    if s.activeMatchIndex ≥ (s.«matches».length : Int) - 1 then 0
    else s.activeMatchIndex + 1 }

/-- The `prevMatch` action: no-op on an empty match array, else step back with
wraparound from `0` to the last index. -/
def prevMatch (s : ChatNav) : ChatNav :=
  if s.«matches».length = 0 then s
  else { s with activeMatchIndex :=
    if s.activeMatchIndex ≤ 0 then (s.«matches».length : Int) - 1
    else s.activeMatchIndex - 1 }

/-- Model of `buildSnippet(text, query)` from `search-context.tsx`: locate the first
case-insensitive occurrence of `query`; if absent return `text.slice(0, 140)`,
else return the window from `max(0, i - 60)` to
`min(text.length, i + query.length + 60)` with `…` on each clipped side. -/
def buildSnippet (text query : Str) : Str :=
  let lowerText := jsToLower text
  let lowerQuery := jsToLower query
  match jsIndexOfFrom lowerText lowerQuery 0 with
  | none => jsSlice text 0 140
  | some matchIndex =>
    let start : Int := max 0 ((matchIndex : Int) - 60)
    let stop : Int := min (text.length : Int) ((matchIndex : Int) + (lowerQuery.length : Int) + 60)
    let pre : Str := if start > 0 then ['…'] else []
    let suf : Str := if stop < (text.length : Int) then ['…'] else []
    pre ++ jsSlice text start stop ++ suf

/-- Untyped JSON values, the input shape of `normalizeConversations`
(`unknown` in the source).  Objects are key/value lists in insertion order
with distinct keys, as produced by `JSON.parse`. -/
inductive JValue where
  | null : JValue
  | bool (b : Bool) : JValue
  | num (n : Int) : JValue
  | str (s : Str) : JValue
  | arr (xs : List JValue) : JValue
  | obj (fields : List (Str × JValue)) : JValue

/-- The object field names probed by `normalizeConversations`. -/
def keyConversations : Str := "conversations".toList

/-- See `keyConversations`. -/
def keyItems : Str := "items".toList

/-- See `keyConversations`. -/
def keyData : Str := "data".toList

/-- Model of `Array.isArray(record[key]) ? record[key] : undefined`. -/
def arrField (fields : List (Str × JValue)) (key : Str) : Option (List JValue) :=
  match List.lookup key fields with
  | some (.arr xs) => some xs
  | _ => none

/-- The JS `key in object` test for a JSON object. -/
def hasKey (fields : List (Str × JValue)) (key : Str) : Bool :=
  fields.any (fun p => p.1 == key)

/-- Model of `item && typeof item === 'object' && ('mapping' in item || 'title' in item
|| 'id' in item || 'conversation_id' in item)` for JSON values (a JSON array
has none of these keys, and `null`/primitives fail the object test). -/
def looksLikeConversation (v : JValue) : Bool :=
  match v with
  | .obj fields =>
      hasKey fields ("mapping".toList) || hasKey fields ("title".toList)
        || hasKey fields ("id".toList) || hasKey fields ("conversation_id".toList)
  | _ => false

/-- Model of `normalizeConversations` from `conversations-utils.ts`. -/
def normalizeConversations (v : JValue) : List JValue :=
  match v with
  | .arr xs => xs
  | .obj fields =>
    match arrField fields keyConversations with
    | some xs => xs
    | none =>
      match arrField fields keyItems with
      | some xs => xs
      | none =>
        match arrField fields keyData with
        | some xs => xs
        | none => (fields.map Prod.snd).filter looksLikeConversation
  | _ => []

/-- The normalizer as the specification words it: the value itself when it is
an array; else the first of the object fields `conversations`, `items`, `data`
(in that precedence) that is exposed as an array; else, for an object, its
values filtered to conversation-shaped items; else the empty list. -/
def normalizeConversationsSpec (v : JValue) : List JValue :=
  match v with
  | .arr xs => xs
  | .obj fields =>
    (((arrField fields keyConversations).orElse
        (fun _ => arrField fields keyItems)).orElse
        (fun _ => arrField fields keyData)).getD
      ((fields.map Prod.snd).filter looksLikeConversation)
  | _ => []

/-- The state fields of the conversations provider touched by `handleFile`. -/
structure ConvLoadState where
  conversations : List JValue
  fileName : Option Str
  error : Option Str
  loading : Bool
  selectedIndex : Option Nat

/-- The error message thrown when normalization yields zero records. -/
def noRecordsMsg : Str :=
  "No conversation records found. Ensure you selected conversations.json.".toList

/-- Model of `handleFile` from `conversations-context.tsx`.  The `parsed` argument is
the combined outcome of `file.text()` and `JSON.parse`: `.error msg` when
either throws (with the caught message), `.ok value` otherwise.  The `try`
block normalizes, treats zero records as a thrown error, and publishes; the
`catch` block records the message and clears conversations and selection;
`finally` clears the loading flag. -/
def handleFile (prior : ConvLoadState) (name : Str) (parsed : Except Str JValue) :
    ConvLoadState :=
  let s1 : ConvLoadState :=
    { prior with error := none, loading := true, fileName := some name }
  let s2 : ConvLoadState :=
    match parsed with
    | .error msg =>
      { s1 with error := some msg, conversations := [], selectedIndex := none }
    | .ok value =>
      let normalized := normalizeConversations value
      if normalized.length = 0 then
        { s1 with error := some noRecordsMsg, conversations := [], selectedIndex := none }
      else
        { s1 with conversations := normalized, selectedIndex := none }
  { s2 with loading := false }

/-- A corpus search record: one per message with non-empty derived text. -/
structure SearchRecord where
  id : Str
  conversationIndex : Nat
  messageId : Str
  title : Str
  role : Str
  text : Str
  createTime : Option Int
deriving DecidableEq, Repr

/-- The record id template literal `m-<conversationIndex>-<count>`. -/
def mkId (c n : Nat) : Str := 'm' :: '-' :: (natRepr c ++ '-' :: natRepr n)

/-- One unit of indexing work: a mapping node together with its conversation's
index and title. -/
structure BuildInput where
  cIndex : Nat
  title : Option Str
  node : MappingNode
deriving DecidableEq, Repr

/-- The iteration order of the build loop, flattened: conversations in order,
and within each conversation its mapping nodes in iteration order. -/
def buildInputs (convs : List Conversation) : List BuildInput :=
  convs.enum.flatMap (fun p => p.2.mapping.map (fun n => ⟨p.1, p.2.title, n⟩))

/-- The body of the build loop for one node at global message counter `count`:
`none` when the node has no message or its derived text is empty, otherwise
the record-table entry `(id, record)` and the index entry
`(id, "<text>\n<title>\n<role>")` as passed to `index.add`. -/
def recordOf (inp : BuildInput) (count : Nat) :
    Option ((Str × SearchRecord) × (Str × Str)) :=
  match inp.node.message with
  | none => none
  | some msg =>
    let text := messageText msg
    if text.isEmpty then none
    else
      let id := mkId inp.cIndex count
      let role := msg.authorRole.getD ("other".toList)
      let title := inp.title.getD ("Untitled".toList)
      some ((id, { id := id, conversationIndex := inp.cIndex,
                   messageId := inp.node.id.getD id, title := title, role := role,
                   text := text, createTime := msg.createTime }),
            (id, text ++ '\n' :: (title ++ '\n' :: role)))

/-- Progress of a build: the global message counter, the record-table entries,
and the index entries, each in insertion order. -/
structure BuildAcc where
  count : Nat
  recs : List (Str × SearchRecord)
  idx : List (Str × Str)
deriving DecidableEq, Repr

/-- One iteration of the build loop. -/
def buildStep (acc : BuildAcc) (inp : BuildInput) : BuildAcc :=
  match recordOf inp acc.count with
  | none => acc
  | some (r, e) => ⟨acc.count + 1, acc.recs ++ [r], acc.idx ++ [e]⟩

/-- The full, uninterrupted index build over `conversations`. -/
def buildAll (convs : List Conversation) : BuildAcc :=
  (buildInputs convs).foldl buildStep ⟨0, [], []⟩

/-- A node contributes a record exactly when it has a message whose derived
text is non-empty. -/
def hasText (inp : BuildInput) : Bool :=
  match inp.node.message with
  | none => false
  | some msg => !(messageText msg).isEmpty

/-- The record ids minted by the build loop, with the running counter made
explicit. -/
def idsFrom : List BuildInput → Nat → List Str
  | [], _ => []
  | inp :: rest, c =>
    if hasText inp then mkId inp.cIndex c :: idsFrom rest (c + 1) else idsFrom rest c

/-- One rendered part of a message in `renderChatHighlights`:
`{ text, match, active }` (the source's `match`/`active` fields are named
`isMatch`/`isActive` here because `match` is reserved in Lean). -/
structure Segment where
  text : Str
  isMatch : Bool
  isActive : Bool
deriving DecidableEq, Repr

/-- Model of `activeMatch?.messageId === match.messageId &&
activeMatch?.start === match.start` (false when there is no active match). -/
def isActiveMatch (active : Option ChatMatch) (m : ChatMatch) : Bool :=
  match active with
  | none => false
  | some a => a.messageId == m.messageId && a.start == m.start

/-- The `for (const match of ms)` loop of `renderChatHighlights`, with
the running cursor explicit; the trailing remainder is pushed after the
loop. -/
def segmentLoop (text : Str) (ms : List ChatMatch)
    (active : Option ChatMatch) (cursor : Nat) : List Segment :=
  match ms with
  | [] =>
    if cursor < text.length then [⟨sliceNat text cursor text.length, false, false⟩]
    else []
  | m :: rest =>
    (if cursor < m.start then [⟨sliceNat text cursor m.start, false, false⟩] else [])
      ++ ⟨sliceNat text m.start m.«end», true, isActiveMatch active m⟩
        :: segmentLoop text rest active m.«end»

/-- Model of `renderChatHighlights` from the chat transcript renderer: the raw text
when there are no ms, otherwise the rendered segment list. -/
def renderChatHighlights (text : Str) (ms : List ChatMatch)
    (active : Option ChatMatch) : Str ⊕ List Segment :=
  if ms.isEmpty then .inl text
  else .inr (segmentLoop text ms active 0)

/-- Case-insensitive containment, the notion of matching used by the snippet
logic. -/
def containsCI (text q : Str) : Bool := decide ((jsToLower q) <:+: (jsToLower text))

/-- Modelled from the spec: `FlexSearch.Index.search(query, limit)` — the
FlexSearch library is a third-party dependency whose code is not part of the
repository.  Per the spec, the call "asks the index for up to 200 candidate
record ids"; the model returns the ids of matching added entries in insertion
order, truncated to the limit. -/
def flexSearch (entries : List (Str × Str)) (q : Str) (limit : Nat) : List Str :=
  ((entries.filter (fun e => containsCI e.2 q)).map Prod.fst).take limit

/-- A corpus search result: `{ record, snippet }`. -/
structure SearchResult where
  record : SearchRecord
  snippet : Str
deriving DecidableEq, Repr

/-- The index build status of the search provider. -/
inductive Status where
  | idle
  | building
  | ready
deriving DecidableEq, Repr

/-- An in-flight `buildIndex` task paused at an `await`: the captured build
id, the conversations captured by the async closure, the remaining work, and
the locally accumulated records and index entries. -/
structure BuildTask where
  buildId : Nat
  convs : List Conversation
  remaining : List BuildInput
  acc : BuildAcc
deriving DecidableEq, Repr

/-- The shared state of the search provider: the generation counter
`searchBuildIdRef`, the published `searchIndexRef` and `searchRecordsRef`,
the status and results, the paused tasks of the scheduler, and — for
specification purposes only — the history of invoked conversation arrays,
newest first. -/
structure SysState where
  gen : Nat
  history : List (List Conversation)
  tasks : List BuildTask
  status : Status
  pubIndex : List (Str × Str)
  pubRecords : List (Str × SearchRecord)
  results : List SearchResult
deriving DecidableEq, Repr

/-- Run the build loop from one resumption point to the next `await` (taken
after every 500th indexed message) or to completion: `.inl` is the paused
task state, `.inr` the completed accumulator. -/
def runChunk : List BuildInput → BuildAcc → (List BuildInput × BuildAcc) ⊕ BuildAcc
  | [], acc => .inr acc
  | inp :: rest, acc =>
    match recordOf inp acc.count with
    | none => runChunk rest acc
    | some (r, e) =>
      let acc' : BuildAcc := ⟨acc.count + 1, acc.recs ++ [r], acc.idx ++ [e]⟩
      if (acc.count + 1) % 500 = 0 then .inl (rest, acc') else runChunk rest acc'

/-- Scheduler events: a `buildIndex` effect invocation (the synchronous
prefix of the async body runs immediately, up to the first `await`), the
resumption of a paused task after its `await`, and a run of the query
effect. -/
inductive SysEvent where
  | invoke (convs : List Conversation) : SysEvent
  | resume (i : Nat) : SysEvent
  | query (q : Str) : SysEvent

/-- The state before the provider mounts: counter `0`, nothing published. -/
def initState : SysState := ⟨0, [], [], .idle, [], [], []⟩

/-- The body of the query effect once its guards pass: ask the index for up
to 200 ids, resolve each against the record table silently skipping ids that
do not resolve, and attach a snippet built from the record's text. -/
def runQueryResults (s : SysState) (q : Str) : List SearchResult :=
  (flexSearch s.pubIndex (jsTrim q) 200).filterMap
    (fun id => (List.lookup id s.pubRecords).map
      (fun rec => ⟨rec, buildSnippet rec.text (jsTrim q)⟩))

/-- The `buildIndex` effect body: bump the generation, publish an empty
index immediately with status `idle` on an empty conversations array, else
clear results, set status `building`, and run the async build's synchronous
prefix — which either pauses at the first `await` (leaving a task) or
completes and publishes with status `ready`. -/
def stepInvoke (s : SysState) (convs : List Conversation) : SysState :=
  let g := s.gen + 1
  if convs.length = 0 then
    { s with
      gen := g
      history := convs :: s.history
      pubIndex := []
      pubRecords := []
      status := .idle
      results := [] }
  else
    match runChunk (buildInputs convs) ⟨0, [], []⟩ with
    | .inl (rest, acc) =>
      { s with
        gen := g
        history := convs :: s.history
        status := .building
        results := []
        tasks := s.tasks ++ [⟨g, convs, rest, acc⟩] }
    | .inr acc =>
      { s with
        gen := g
        history := convs :: s.history
        status := .ready
        results := []
        pubIndex := acc.idx
        pubRecords := acc.recs }

/-- Resuming task `i` after its `await`: the post-`await` staleness check
(`searchBuildIdRef.current !== buildId`) aborts a superseded task without
touching shared state; a current task runs to the next yield or publishes. -/
def stepResume (s : SysState) (i : Nat) : SysState :=
  match s.tasks[i]? with
  | none => s
  | some t =>
    let others := s.tasks.eraseIdx i
    if t.buildId ≠ s.gen then { s with tasks := others }
    else
      match runChunk t.remaining t.acc with
      | .inl (rest, acc) =>
        { s with tasks := others ++ [⟨t.buildId, t.convs, rest, acc⟩] }
      | .inr acc =>
        { s with
          tasks := others
          status := .ready
          pubIndex := acc.idx
          pubRecords := acc.recs }

/-- The corpus query effect.  An empty trimmed query clears the results; a
non-ready status leaves state untouched (the published index reference can
be null only before the first build effect, when the status is still `idle`,
so the status guard subsumes the source's null check); otherwise the
computed results are published. -/
def stepQuery (s : SysState) (q : Str) : SysState :=
  if (jsTrim q).isEmpty then { s with results := [] }
  else if s.status ≠ .ready then s
  else { s with results := runQueryResults s q }

/-- One scheduler step. -/
def stepSys (s : SysState) : SysEvent → SysState
  | .invoke convs => stepInvoke s convs
  | .resume i => stepResume s i
  | .query q => stepQuery s q

/-- The state reached from the pristine state by a sequence of events. -/
def runEvents (es : List SysEvent) : SysState := es.foldl stepSys initState

/-- The number of `buildIndex` invocations in an event sequence. -/
def countInvokes (es : List SysEvent) : Nat :=
  es.countP (fun e => match e with | .invoke _ => true | _ => false)

/-- A paused task is consistent with its captured conversations: its
accumulator is the build fold over a processed prefix of its inputs and its
remaining work is the matching suffix. -/
def TaskConsistent (t : BuildTask) : Prop :=
  ∃ pre, buildInputs t.convs = pre ++ t.remaining
    ∧ t.acc = pre.foldl buildStep ⟨0, [], []⟩

/-- The inductive invariant of the provider state machine: the generation
counter counts the invocations; every task's build id is at most the current
generation and a current task carries the newest conversations; every task is
consistent; a `ready` status means the published table and index are the full
build of the newest conversations; and outside `ready` the results are
empty. -/
def Inv (s : SysState) : Prop :=
  s.gen = s.history.length
  ∧ (∀ t ∈ s.tasks, t.buildId ≤ s.gen
      ∧ (t.buildId = s.gen → s.history.head? = some t.convs)
      ∧ TaskConsistent t)
  ∧ (s.status = .ready → ∃ cs, s.history.head? = some cs
      ∧ s.pubRecords = (buildAll cs).recs ∧ s.pubIndex = (buildAll cs).idx)
  ∧ (s.status ≠ .ready → s.results = [])

theorem sortLE_trans : ∀ (a b c : DisplayMessage),
    (fun a b => decide (sortKey a ≤ sortKey b)) a b = true →
    (fun a b => decide (sortKey a ≤ sortKey b)) b c = true →
    (fun a b => decide (sortKey a ≤ sortKey b)) a c = true := by
  intro a b c hab hbc
  simp only [decide_eq_true_eq] at *
  omega

theorem sortLE_total : ∀ (a b : DisplayMessage),
    ((fun a b => decide (sortKey a ≤ sortKey b)) a b
      || (fun a b => decide (sortKey a ≤ sortKey b)) b a) = true := by
  intro a b
  simp only [Bool.or_eq_true, decide_eq_true_eq]
  omega

theorem length_filterMap_displayOf (nodes : List MappingNode) :
    (nodes.filterMap displayOf).length = nodes.countP (fun n => n.message.isSome) := by
  induction nodes with
  | nil => rfl
  | cons n rest ih =>
    cases h : n.message with
    | none =>
      simp [List.filterMap_cons, List.countP_cons, displayOf, h, ih]
    | some m =>
      simp [List.filterMap_cons, List.countP_cons, displayOf, h, ih]

theorem filter_key_pairwise (l : List DisplayMessage) (k : Int) :
    (l.filter (fun d => decide (sortKey d = k))).Pairwise
      (fun a b => (fun a b => decide (sortKey a ≤ sortKey b)) a b = true) := by
  have h : ∀ a ∈ l.filter (fun d => decide (sortKey d = k)), sortKey a = k := by
    intro a ha
    have := List.of_mem_filter ha
    simpa using this
  apply List.pairwise_of_forall_mem_list
  intro a ha b hb
  have h1 := h a ha
  have h2 := h b hb
  simp only [decide_eq_true_eq]
  omega

/-- Claim C2: for every conversation, `extractMessages` returns a list sorted
non-decreasing by `createTime ?? 0`, whose length equals the number of mapping
nodes with a non-null `message`, and ties preserve the mapping iteration order
(for every key value, the equal-key sublist of the output equals the equal-key
sublist of the pre-sort filterMap image); being a Lean function of the
conversation, it is a pure function of its input. -/
theorem extractMessages_spec (c : Conversation) :
    (extractMessages c).Pairwise (fun a b => sortKey a ≤ sortKey b)
    ∧ (extractMessages c).length = c.mapping.countP (fun n => n.message.isSome)
    ∧ ∀ k : Int, (extractMessages c).filter (fun d => decide (sortKey d = k))
        = (c.mapping.filterMap displayOf).filter (fun d => decide (sortKey d = k)) := by
  refine ⟨?_, ?_, ?_⟩
  · have h := @List.sorted_mergeSort DisplayMessage
      (fun a b => decide (sortKey a ≤ sortKey b))
      sortLE_trans sortLE_total (c.mapping.filterMap displayOf)
    exact h.imp (by intro a b hab; simpa using hab)
  · rw [extractMessages, List.length_mergeSort]
    exact length_filterMap_displayOf c.mapping
  · intro k
    set le := fun a b : DisplayMessage => decide (sortKey a ≤ sortKey b) with hle
    set l := c.mapping.filterMap displayOf with hl
    set p := fun d : DisplayMessage => decide (sortKey d = k) with hp
    have hsub : List.Sublist (l.filter p) (l.mergeSort le) := by
      apply List.sublist_mergeSort sortLE_trans sortLE_total
      · exact filter_key_pairwise l k
      · exact List.filter_sublist l
    have hsub2 : List.Sublist ((l.filter p).filter p) ((l.mergeSort le).filter p) :=
      List.Sublist.filter p hsub
    rw [List.filter_filter] at hsub2
    have hsimp : (fun a => p a && p a) = p := by
      funext a; exact Bool.and_self (p a)
    rw [hsimp] at hsub2
    have hperm : List.Perm ((l.mergeSort le).filter p) (l.filter p) :=
      (List.mergeSort_perm l le).filter p
    exact (List.Sublist.eq_of_length hsub2 hperm.length_eq.symm).symm

theorem jsIndexOfFrom_ge (hay needle : Str) (i j : Nat)
    (h : jsIndexOfFrom hay needle i = some j) : i ≤ j := by
  have := List.find?_some h
  simp only [Bool.and_eq_true, decide_eq_true_eq] at this
  exact this.1

theorem scanMessageAux_start_ge (needle msgId hay : Str) :
    ∀ fuel i x, x ∈ scanMessageAux needle msgId hay i fuel → i ≤ x.start := by
  intro fuel
  induction fuel with
  | zero => intro i x hx; simp [scanMessageAux] at hx
  | succ fuel' ih =>
    intro i x hx
    rw [scanMessageAux] at hx
    by_cases hi : i < hay.length
    · simp only [if_pos hi] at hx
      cases hf : jsIndexOfFrom hay needle i with
      | none => rw [hf] at hx; simp at hx
      | some found =>
        rw [hf] at hx
        have hif := jsIndexOfFrom_ge hay needle i found hf
        rcases List.mem_cons.mp hx with h1 | h2
        · subst h1; exact hif
        · have := ih (found + needle.length) x h2
          omega
    · simp only [if_neg hi] at hx
      simp at hx

theorem scanMessageAux_chain (needle msgId hay : Str) :
    ∀ fuel i, List.Chain' (fun a b => a.«end» ≤ b.start)
      (scanMessageAux needle msgId hay i fuel) := by
  intro fuel
  induction fuel with
  | zero => intro i; simp [scanMessageAux]
  | succ fuel' ih =>
    intro i
    rw [scanMessageAux]
    by_cases hi : i < hay.length
    · simp only [if_pos hi]
      cases hf : jsIndexOfFrom hay needle i with
      | none => simp
      | some found =>
        apply List.chain'_cons'.mpr
        constructor
        · intro b hb
          have hmem : b ∈ scanMessageAux needle msgId hay (found + needle.length) fuel' :=
            List.mem_of_mem_head? hb
          exact scanMessageAux_start_ge needle msgId hay fuel' _ b hmem
        · exact ih (found + needle.length)
    · simp only [if_neg hi]
      simp

/-- Claim C3: the chat match finder's matches within one message never
overlap (each consecutive pair in a message's scan satisfies
`end ≤ start`, because the cursor advances to the end of each occurrence);
`findMatches` is the concatenation of these per-message scans gated on a
non-empty trimmed query; and the query `"aa"` against text `"aaa"` yields
exactly one match `[0, 2)`. -/
theorem findMatches_nonoverlap (msgs : List DisplayMessage) (query : Str)
    (m : DisplayMessage) :
    List.Chain' (fun a b => a.«end» ≤ b.start)
      (messageMatches (jsToLower (jsTrim query)) m)
    ∧ findMatches msgs query =
        (if (jsToLower (jsTrim query)).isEmpty then []
         else msgs.flatMap (fun m => messageMatches (jsToLower (jsTrim query)) m))
    ∧ findMatches [⟨"n1".toList, none, none, "aaa".toList⟩] ("aa".toList)
        = [⟨"n1".toList, 0, 2⟩] := by
  refine ⟨?_, rfl, by decide⟩
  exact scanMessageAux_chain _ _ _ _ _

theorem nextMatch_mod (ms : List ChatMatch) (j : Int)
    (h0 : 0 ≤ j) (h1 : j < (ms.length : Int)) :
    nextMatch ⟨ms, j⟩ = ⟨ms, (j + 1) % (ms.length : Int)⟩ := by
  have hn : ms.length ≠ 0 := by
    intro h; rw [h] at h1; omega
  rw [nextMatch]
  simp only [if_neg hn]
  by_cases hj : j ≥ (ms.length : Int) - 1
  · have hje : j = (ms.length : Int) - 1 := by omega
    have : (j + 1) % (ms.length : Int) = 0 := by
      rw [hje]; simp
    simp only [if_pos hj, this]
  · have : (j + 1) % (ms.length : Int) = j + 1 :=
      Int.emod_eq_of_lt (by omega) (by omega)
    simp only [if_neg hj, this]

theorem prevMatch_mod (ms : List ChatMatch) (j : Int)
    (h0 : 0 ≤ j) (h1 : j < (ms.length : Int)) :
    prevMatch ⟨ms, j⟩ = ⟨ms, (j + ((ms.length : Int) - 1)) % (ms.length : Int)⟩ := by
  have hn : ms.length ≠ 0 := by
    intro h; rw [h] at h1; omega
  rw [prevMatch]
  simp only [if_neg hn]
  by_cases hj : j ≤ 0
  · have hje : j = 0 := by omega
    have : (j + ((ms.length : Int) - 1)) % (ms.length : Int) = (ms.length : Int) - 1 := by
      rw [hje, zero_add]
      exact Int.emod_eq_of_lt (by omega) (by omega)
    simp only [if_pos hj, this]
  · have heq : j + ((ms.length : Int) - 1) = (j - 1) + (ms.length : Int) * 1 := by ring
    have : (j + ((ms.length : Int) - 1)) % (ms.length : Int) = j - 1 := by
      rw [heq, Int.add_mul_emod_self_left]
      exact Int.emod_eq_of_lt (by omega) (by omega)
    simp only [if_neg hj, this]

theorem nextMatch_iterate (ms : List ChatMatch) (j : Int) (m : Nat)
    (h0 : 0 ≤ j) (h1 : j < (ms.length : Int)) :
    nextMatch^[m] ⟨ms, j⟩ = ⟨ms, (j + m) % (ms.length : Int)⟩ := by
  have hn : (0 : Int) < (ms.length : Int) := by omega
  induction m generalizing j with
  | zero =>
    simp only [Function.iterate_zero, id_eq, Nat.cast_zero, add_zero]
    rw [Int.emod_eq_of_lt h0 h1]
  | succ m' ih =>
    rw [Function.iterate_succ_apply, nextMatch_mod ms j h0 h1]
    have hb0 : 0 ≤ (j + 1) % (ms.length : Int) := Int.emod_nonneg _ (by omega)
    have hb1 : (j + 1) % (ms.length : Int) < (ms.length : Int) := Int.emod_lt_of_pos _ hn
    rw [ih _ hb0 hb1]
    congr 1
    rw [Int.emod_add_emod]
    congr 1
    push_cast
    ring_nf

theorem prevMatch_iterate (ms : List ChatMatch) (j : Int) (m : Nat)
    (h0 : 0 ≤ j) (h1 : j < (ms.length : Int)) :
    prevMatch^[m] ⟨ms, j⟩ = ⟨ms, (j + m * ((ms.length : Int) - 1)) % (ms.length : Int)⟩ := by
  induction m generalizing j with
  | zero =>
    simp only [Function.iterate_zero, id_eq, Nat.cast_zero, zero_mul, add_zero]
    rw [Int.emod_eq_of_lt h0 h1]
  | succ m' ih =>
    rw [Function.iterate_succ_apply, prevMatch_mod ms j h0 h1]
    have hb0 : 0 ≤ (j + ((ms.length : Int) - 1)) % (ms.length : Int) :=
      Int.emod_nonneg _ (by omega)
    have hb1 : (j + ((ms.length : Int) - 1)) % (ms.length : Int) < (ms.length : Int) :=
      Int.emod_lt_of_pos _ (by omega)
    rw [ih _ hb0 hb1, Int.emod_add_emod]
    congr 1
    push_cast
    ring_nf

/-- Claim C4: in a match array of length `n > 0`, starting from any active
index `k` with `0 ≤ k < n`, `n` applications of `nextMatch` return to `k`,
and likewise for `prevMatch`; a single `nextMatch` advances by one with
wraparound from the last index to `0`, `prevMatch` is symmetric wrapping
from `0` to the last index, and both are no-ops on an empty match array. -/
theorem nav_cycle (ms : List ChatMatch) (k : Int)
    (h0 : 0 ≤ k) (h1 : k < (ms.length : Int)) :
    nextMatch^[ms.length] ⟨ms, k⟩ = ⟨ms, k⟩
    ∧ prevMatch^[ms.length] ⟨ms, k⟩ = ⟨ms, k⟩
    ∧ nextMatch ⟨ms, k⟩ = ⟨ms, (k + 1) % (ms.length : Int)⟩
    ∧ prevMatch ⟨ms, k⟩ = ⟨ms, (k + ((ms.length : Int) - 1)) % (ms.length : Int)⟩
    ∧ (∀ s : ChatNav, s.«matches».length = 0 → nextMatch s = s ∧ prevMatch s = s) := by
  refine ⟨?_, ?_, nextMatch_mod ms k h0 h1, prevMatch_mod ms k h0 h1, ?_⟩
  · rw [nextMatch_iterate ms k ms.length h0 h1]
    congr 1
    rw [show k + (ms.length : Int) = k + (ms.length : Int) * 1 by ring,
      Int.add_mul_emod_self_left]
    exact Int.emod_eq_of_lt h0 h1
  · rw [prevMatch_iterate ms k ms.length h0 h1]
    congr 1
    rw [Int.add_mul_emod_self_left]
    exact Int.emod_eq_of_lt h0 h1
  · intro s hs
    constructor
    · rw [nextMatch, if_pos hs]
    · rw [prevMatch, if_pos hs]

/-- Concrete instance of `nav_cycle` on a one-element match array. -/
theorem nav_cycle_witness :
    (0 : Int) ≤ 0
    ∧ (0 : Int) < (([⟨['x'], 0, 1⟩] : List ChatMatch).length : Int)
    ∧ nextMatch^[([⟨['x'], 0, 1⟩] : List ChatMatch).length]
        ⟨[⟨['x'], 0, 1⟩], 0⟩ = ⟨[⟨['x'], 0, 1⟩], 0⟩ :=
  ⟨by decide, by decide, (nav_cycle [⟨['x'], 0, 1⟩] 0 (by decide) (by decide)).1⟩

theorem jsSlice_of_cases (s : Str) (a b : Int) (ha : 0 ≤ a) (hb : 0 ≤ b) :
    jsSlice s a b = (s.take b.toNat).drop a.toNat := by
  rw [jsSlice]
  have h1 : ¬a < 0 := by omega
  have h2 : ¬b < 0 := by omega
  simp only [if_neg h1, if_neg h2]
  have hhi : (min b (s.length : Int)).toNat = min b.toNat s.length := by omega
  have hlo : (min a (s.length : Int)).toNat = min a.toNat s.length := by omega
  rw [hhi, hlo]
  have htake : s.take (min b.toNat s.length) = s.take b.toNat := by
    rcases le_total b.toNat s.length with h | h
    · rw [min_eq_left h]
    · rw [min_eq_right h, List.take_length, List.take_of_length_le h]
  rw [htake]
  rcases le_total a.toNat s.length with h | h
  · rw [min_eq_left h]
  · rw [min_eq_right h]
    have hl1 : (s.take b.toNat).length ≤ s.length := by
      rw [List.length_take]; omega
    rw [List.drop_eq_nil_of_le hl1, List.drop_eq_nil_of_le (by omega)]

theorem jsSlice_zero_eq_take (s : Str) : jsSlice s 0 140 = s.take 140 := by
  rw [jsSlice_of_cases s 0 140 (by omega) (by omega)]
  simp

theorem jsToLower_jsSlice (s : Str) (a b : Int) (ha : 0 ≤ a) (hb : 0 ≤ b) :
    jsToLower (jsSlice s a b) = jsSlice (jsToLower s) a b := by
  rw [jsSlice_of_cases s a b ha hb, jsSlice_of_cases (jsToLower s) a b ha hb]
  simp only [jsToLower, List.map_drop, List.map_take]

theorem jsIndexOfFrom_occurs (hay needle : Str) (i j : Nat)
    (h : jsIndexOfFrom hay needle i = some j) :
    needle <+: hay.drop j := by
  have := List.find?_some h
  simp only [Bool.and_eq_true, decide_eq_true_eq] at this
  exact List.isPrefixOf_iff_prefix.mp this.2

theorem jsIndexOfFrom_isSome_of_occurs (hay needle : Str)
    (h : needle <:+: hay) : (jsIndexOfFrom hay needle 0).isSome := by
  rw [jsIndexOfFrom]
  apply List.find?_isSome.mpr
  obtain ⟨s, t, hst⟩ := h
  refine ⟨s.length, ?_, ?_⟩
  · apply List.mem_range.mpr
    have : s.length ≤ hay.length := by
      rw [← hst]
      simp only [List.length_append]
      omega
    omega
  · simp only [Bool.and_eq_true, decide_eq_true_eq]
    refine ⟨by omega, ?_⟩
    rw [occursAt, ← hst, List.append_assoc, List.drop_left]
    exact List.isPrefixOf_iff_prefix.mpr (List.prefix_append needle t)

theorem occurs_length_le (hay needle : Str) (j : Nat)
    (h : needle <+: hay.drop j) (hj : j ≤ hay.length) :
    j + needle.length ≤ hay.length := by
  have := h.length_le
  rw [List.length_drop] at this
  omega

theorem jsIndexOfFrom_le_length (hay needle : Str) (i j : Nat)
    (h : jsIndexOfFrom hay needle i = some j) : j ≤ hay.length := by
  have hmem := List.mem_of_find?_eq_some h
  have := List.mem_range.mp hmem
  omega

theorem prefix_take_of_le {α : Type} (l w : List α) (n : Nat)
    (h : l <+: w) (hn : l.length ≤ n) : l <+: w.take n := by
  rw [List.prefix_iff_eq_take] at h ⊢
  rw [List.take_take]
  have : min l.length n = l.length := by omega
  rw [this]
  exact h

theorem infix_append_middle {α : Type} (l m a b : List α) (h : l <:+: m) :
    l <:+: a ++ m ++ b := by
  obtain ⟨u, v, huv⟩ := h
  exact ⟨a ++ u, v ++ b, by rw [← huv]; simp [List.append_assoc]⟩

theorem window_contains (lt lq : Str) (mi : Nat) (start stop : Int)
    (hocc : lq <+: lt.drop mi)
    (hs0 : 0 ≤ start) (ht0 : 0 ≤ stop)
    (hsmi : start.toNat ≤ mi) (htmi : mi + lq.length ≤ stop.toNat) :
    lq <:+: jsSlice lt start stop := by
  rw [jsSlice_of_cases _ start stop hs0 ht0]
  have step1 : lq <+: (lt.drop mi).take (stop.toNat - mi) :=
    prefix_take_of_le _ _ _ hocc (by omega)
  have step2 : (lt.drop mi).take (stop.toNat - mi) = (lt.take stop.toNat).drop mi := by
    rw [List.take_drop]
    have hmi : mi + (stop.toNat - mi) = stop.toNat := by omega
    rw [hmi]
  have step3 : (lt.take stop.toNat).drop mi
      = ((lt.take stop.toNat).drop start.toNat).drop (mi - start.toNat) := by
    rw [List.drop_drop]
    have hmi : start.toNat + (mi - start.toNat) = mi := by omega
    rw [hmi]
  rw [step2, step3] at step1
  exact List.infix_iff_prefix_suffix.mpr ⟨_, step1, List.drop_suffix _ _⟩

/-- Claim C5: `buildSnippet` returns the first 140 characters when the query
does not occur case-insensitively; otherwise it returns the slice from
`max(0, start - 60)` to `min(length, end + 60)` with `…` prefixed exactly
when the window does not begin at 0 and suffixed exactly when it does not
reach the end; and whenever the lower-cased text contains the lower-cased
query, so does the lower-cased snippet. -/
theorem buildSnippet_spec (text query : Str) :
    (jsIndexOfFrom (jsToLower text) (jsToLower query) 0 = none →
      buildSnippet text query = text.take 140)
    ∧ (∀ matchIndex : Nat,
        jsIndexOfFrom (jsToLower text) (jsToLower query) 0 = some matchIndex →
        buildSnippet text query =
          (if max 0 ((matchIndex : Int) - 60) ≠ 0 then ['…'] else [])
          ++ jsSlice text (max 0 ((matchIndex : Int) - 60))
              (min (text.length : Int) ((matchIndex : Int) + (query.length : Int) + 60))
          ++ (if min (text.length : Int) ((matchIndex : Int) + (query.length : Int) + 60)
                ≠ (text.length : Int) then ['…'] else []))
    ∧ ((jsToLower query) <:+: (jsToLower text) →
        (jsToLower query) <:+: (jsToLower (buildSnippet text query))) := by
  refine ⟨?_, ?_, ?_⟩
  · intro h
    simp only [buildSnippet, h]
    exact jsSlice_zero_eq_take text
  · intro matchIndex h
    simp only [buildSnippet, h]
    have hql : (jsToLower query).length = query.length := List.length_map _ _
    rw [hql]
    have h1 : (max 0 ((matchIndex : Int) - 60) > 0)
        ↔ (max 0 ((matchIndex : Int) - 60) ≠ 0) := by omega
    have h2 : (min (text.length : Int) ((matchIndex : Int) + (query.length : Int) + 60)
          < (text.length : Int))
        ↔ (min (text.length : Int) ((matchIndex : Int) + (query.length : Int) + 60)
          ≠ (text.length : Int)) := by omega
    rw [if_congr h1 rfl rfl, if_congr h2 rfl rfl]
  · intro h
    have hsome := jsIndexOfFrom_isSome_of_occurs (jsToLower text) (jsToLower query) h
    obtain ⟨mi, hmi⟩ := Option.isSome_iff_exists.mp hsome
    have hocc := jsIndexOfFrom_occurs _ _ 0 mi hmi
    have hmile : mi ≤ (jsToLower text).length := jsIndexOfFrom_le_length _ _ 0 mi hmi
    have hlen : mi + (jsToLower query).length ≤ (jsToLower text).length :=
      occurs_length_le _ _ mi hocc hmile
    have hlt : (jsToLower text).length = text.length := List.length_map _ _
    simp only [buildSnippet, hmi]
    have happ : ∀ a b c : Str,
        jsToLower (a ++ b ++ c) = jsToLower a ++ jsToLower b ++ jsToLower c := by
      intro a b c
      simp [jsToLower]
    rw [happ, jsToLower_jsSlice text _ _ (by omega)
      (show (0 : Int) ≤ min (text.length : Int)
        ((mi : Int) + ((jsToLower query).length : Int) + 60) by omega)]
    apply infix_append_middle
    exact window_contains _ _ mi _ _ hocc (by omega) (by omega) (by omega) (by omega)

/-- Concrete instances of `buildSnippet_spec`: a query absent from the text
(first conjunct) and a query present in the text (third conjunct). -/
theorem buildSnippet_spec_witness :
    (jsIndexOfFrom (jsToLower "hay".toList) (jsToLower "zzz".toList) 0 = none
      ∧ buildSnippet "hay".toList "zzz".toList = "hay".toList.take 140)
    ∧ ((jsToLower "lo".toList) <:+: (jsToLower "Hello".toList)
      ∧ (jsToLower "lo".toList) <:+: (jsToLower (buildSnippet "Hello".toList "lo".toList))) :=
  ⟨⟨by decide, (buildSnippet_spec "hay".toList "zzz".toList).1 (by decide)⟩,
   ⟨by decide, (buildSnippet_spec "Hello".toList "lo".toList).2.2 (by decide)⟩⟩

/-- Claim C7: `normalizeConversations` returns the array itself for an array,
the first of the `conversations`/`items`/`data` fields exposed as an array for
an object carrying one, else the object's values filtered to items that are
objects with at least one of the keys `mapping`, `title`, `id`,
`conversation_id`, and the empty list for every other input; as a total Lean
function it never throws on a shape mismatch. -/
theorem normalizeConversations_meets_spec (v : JValue) :
    normalizeConversations v = normalizeConversationsSpec v := by
  cases v with
  | null => rfl
  | bool b => rfl
  | num n => rfl
  | str s => rfl
  | arr xs => rfl
  | obj fields =>
    unfold normalizeConversations normalizeConversationsSpec
    cases h1 : arrField fields keyConversations with
    | some xs => simp [h1, Option.orElse]
    | none =>
      cases h2 : arrField fields keyItems with
      | some xs => simp [h1, h2, Option.orElse]
      | none =>
        cases h3 : arrField fields keyData with
        | some xs => simp [h1, h2, h3, Option.orElse]
        | none => simp [h1, h2, h3, Option.orElse]

/-- Claim C10: whenever loading fails — reading or `JSON.parse` throws, or
normalization yields zero records — `handleFile` ends with an empty
conversations list, a cleared selection, and a set error message, regardless
of the previously loaded state (the resulting state is a record literal that
does not mention the prior conversations). -/
theorem handleFile_failure (prior : ConvLoadState) (name : Str)
    (parsed : Except Str JValue) :
    (∀ msg, parsed = .error msg →
      handleFile prior name parsed =
        { conversations := [], fileName := some name, error := some msg,
          loading := false, selectedIndex := none })
    ∧ (∀ value, parsed = .ok value → normalizeConversations value = [] →
      handleFile prior name parsed =
        { conversations := [], fileName := some name, error := some noRecordsMsg,
          loading := false, selectedIndex := none }) := by
  constructor
  · intro msg h
    subst h
    rfl
  · intro value h hnorm
    subst h
    simp [handleFile, hnorm]

/-- Concrete instances of `handleFile_failure`: a parse failure and a
normalization failure, both starting from a non-empty prior state. -/
theorem handleFile_failure_witness :
    (handleFile ⟨[JValue.num 1], some ['f'], none, false, some 0⟩ ['g'] (.error ['e']) =
      { conversations := [], fileName := some ['g'], error := some ['e'],
        loading := false, selectedIndex := none })
    ∧ (handleFile ⟨[JValue.num 1], some ['f'], none, false, some 0⟩ ['g'] (.ok JValue.null) =
      { conversations := [], fileName := some ['g'], error := some noRecordsMsg,
        loading := false, selectedIndex := none }) :=
  ⟨(handleFile_failure ⟨[JValue.num 1], some ['f'], none, false, some 0⟩ ['g']
      (.error ['e'])).1 ['e'] rfl,
   (handleFile_failure ⟨[JValue.num 1], some ['f'], none, false, some 0⟩ ['g']
      (.ok JValue.null)).2 JValue.null rfl rfl⟩

theorem natDigitsAux_eq_digits : ∀ (fuel n : Nat), n ≤ fuel →
    natDigitsAux fuel n = Nat.digits 10 n := by
  intro fuel
  induction fuel with
  | zero =>
    intro n hn
    have h0 : n = 0 := by omega
    subst h0
    simp [natDigitsAux]
  | succ fuel' ih =>
    intro n hn
    cases n with
    | zero => simp [natDigitsAux]
    | succ n' =>
      have hd : (n' + 1) / 10 ≤ fuel' := by omega
      rw [natDigitsAux, ih ((n' + 1) / 10) hd,
        Nat.digits_def' (b := 10) (by norm_num) (Nat.succ_pos n')]

theorem natDigits_eq_digits (n : Nat) : natDigits n = Nat.digits 10 n :=
  natDigitsAux_eq_digits n n (le_refl n)

theorem digitChar_inj : ∀ d1 : Nat, d1 < 10 → ∀ d2 : Nat, d2 < 10 →
    digitChar d1 = digitChar d2 → d1 = d2 := by decide

theorem digitChar_ne_dash : ∀ d : Nat, d < 10 → digitChar d ≠ '-' := by decide

theorem natRepr_no_dash (n : Nat) : '-' ∉ natRepr n := by
  rw [natRepr]
  by_cases h : n = 0
  · simp only [if_pos h]
    decide
  · simp only [if_neg h, natDigits_eq_digits]
    intro hmem
    rw [List.mem_reverse] at hmem
    obtain ⟨d, hd, hdc⟩ := List.mem_map.mp hmem
    exact digitChar_ne_dash d (Nat.digits_lt_base (by norm_num) hd) hdc

theorem map_digitChar_inj : ∀ (l1 l2 : List Nat), (∀ d ∈ l1, d < 10) →
    (∀ d ∈ l2, d < 10) → l1.map digitChar = l2.map digitChar → l1 = l2 := by
  intro l1
  induction l1 with
  | nil =>
    intro l2 _ _ h
    cases l2 with
    | nil => rfl
    | cons b l2' => simp at h
  | cons a l1' ih =>
    intro l2 h1 h2 h
    cases l2 with
    | nil => simp at h
    | cons b l2' =>
      simp only [List.map_cons, List.cons.injEq] at h
      have ha : a < 10 := h1 a (by simp)
      have hb : b < 10 := h2 b (by simp)
      have hab := digitChar_inj a ha b hb h.1
      rw [hab, ih l2' (fun d hd => h1 d (by simp [hd])) (fun d hd => h2 d (by simp [hd])) h.2]

theorem natRepr_inj (m n : Nat) (h : natRepr m = natRepr n) : m = n := by
  rw [natRepr, natRepr, natDigits_eq_digits, natDigits_eq_digits] at h
  by_cases hm : m = 0 <;> by_cases hn : n = 0
  · omega
  · exfalso
    simp only [if_pos hm, if_neg hn] at h
    have h' : (Nat.digits 10 n).map digitChar = ['0'] := by
      have := congrArg List.reverse h
      simpa using this.symm
    have hd : Nat.digits 10 n = [0] := by
      apply map_digitChar_inj
      · intro d hd
        exact Nat.digits_lt_base (by norm_num) hd
      · intro d hd
        simp at hd
        omega
      · rw [h']
        decide
    have := Nat.ofDigits_digits 10 n
    rw [hd] at this
    simp [Nat.ofDigits] at this
    omega
  · exfalso
    simp only [if_neg hm, if_pos hn] at h
    have h' : (Nat.digits 10 m).map digitChar = ['0'] := by
      have := congrArg List.reverse h
      simpa using this
    have hd : Nat.digits 10 m = [0] := by
      apply map_digitChar_inj
      · intro d hd
        exact Nat.digits_lt_base (by norm_num) hd
      · intro d hd
        simp at hd
        omega
      · rw [h']
        decide
    have := Nat.ofDigits_digits 10 m
    rw [hd] at this
    simp [Nat.ofDigits] at this
    omega
  · simp only [if_neg hm, if_neg hn] at h
    have h' := List.reverse_injective h
    have hd := map_digitChar_inj _ _
      (fun d hd => Nat.digits_lt_base (by norm_num) hd)
      (fun d hd => Nat.digits_lt_base (by norm_num) hd) h'
    have h1 := Nat.ofDigits_digits 10 m
    have h2 := Nat.ofDigits_digits 10 n
    rw [hd] at h1
    omega

theorem takeWhile_append_all {α : Type} (p : α → Bool) (A B : List α) (x : α)
    (hA : ∀ a ∈ A, p a = true) (hx : p x = false) :
    (A ++ x :: B).takeWhile p = A := by
  induction A with
  | nil => simp [List.takeWhile_cons, hx]
  | cons a A' ih =>
    have hpa : p a = true := hA a (by simp)
    simp [List.takeWhile_cons, hpa, ih (fun b hb => hA b (by simp [hb]))]

theorem mkId_reverse (c n : Nat) :
    (mkId c n).reverse
      = (natRepr n).reverse ++ '-' :: ((natRepr c).reverse ++ ['-', 'm']) := by
  rw [mkId]
  simp [List.reverse_cons, List.reverse_append, List.append_assoc]

theorem mkId_ord_inj (c1 n1 c2 n2 : Nat) (h : mkId c1 n1 = mkId c2 n2) :
    n1 = n2 := by
  have hrev := congrArg List.reverse h
  rw [mkId_reverse, mkId_reverse] at hrev
  have htw := congrArg (List.takeWhile (fun ch => ch != '-')) hrev
  have hA1 : ∀ a ∈ (natRepr n1).reverse, (a != '-') = true := by
    intro a ha
    rw [List.mem_reverse] at ha
    have := natRepr_no_dash n1
    simp only [bne_iff_ne, ne_eq]
    intro heq
    rw [heq] at ha
    exact this ha
  have hA2 : ∀ a ∈ (natRepr n2).reverse, (a != '-') = true := by
    intro a ha
    rw [List.mem_reverse] at ha
    have := natRepr_no_dash n2
    simp only [bne_iff_ne, ne_eq]
    intro heq
    rw [heq] at ha
    exact this ha
  rw [takeWhile_append_all _ _ _ _ hA1 (by decide),
    takeWhile_append_all _ _ _ _ hA2 (by decide)] at htw
  exact natRepr_inj n1 n2 (List.reverse_injective htw)

theorem recordOf_none (inp : BuildInput) (c : Nat) (h : hasText inp = false) :
    recordOf inp c = none := by
  cases hm : inp.node.message with
  | none => simp [recordOf, hm]
  | some msg =>
    simp only [hasText, hm] at h
    have h2 : (messageText msg).isEmpty = true := by simpa using h
    simp [recordOf, hm, h2]

theorem recordOf_some (inp : BuildInput) (c : Nat) (h : hasText inp = true) :
    ∃ rec ent, recordOf inp c = some ((mkId inp.cIndex c, rec), ent)
      ∧ rec.id = mkId inp.cIndex c ∧ rec.conversationIndex = inp.cIndex := by
  cases hm : inp.node.message with
  | none =>
    simp only [hasText, hm] at h
    exact absurd h (by simp)
  | some msg =>
    simp only [hasText, hm] at h
    have h2 : (messageText msg).isEmpty = false := by simpa using h
    refine ⟨{ id := mkId inp.cIndex c, conversationIndex := inp.cIndex,
              messageId := inp.node.id.getD (mkId inp.cIndex c),
              title := inp.title.getD ("Untitled".toList),
              role := msg.authorRole.getD ("other".toList),
              text := messageText msg, createTime := msg.createTime },
            (mkId inp.cIndex c,
              messageText msg ++ '\n' :: ((inp.title.getD ("Untitled".toList))
                ++ '\n' :: (msg.authorRole.getD ("other".toList)))), ?_, rfl, rfl⟩
    simp [recordOf, hm, h2]

theorem foldl_buildStep_spec : ∀ (l : List BuildInput) (acc : BuildAcc),
    ((l.foldl buildStep acc).recs).map Prod.fst
        = acc.recs.map Prod.fst ++ idsFrom l acc.count
    ∧ (l.foldl buildStep acc).count = acc.count + l.countP hasText := by
  intro l
  induction l with
  | nil =>
    intro acc
    simp [idsFrom]
  | cons inp rest ih =>
    intro acc
    cases hht : hasText inp with
    | false =>
      have hr := recordOf_none inp acc.count hht
      have hstep : buildStep acc inp = acc := by
        rw [buildStep, hr]
      rw [List.foldl_cons, hstep]
      obtain ⟨ihm, ihc⟩ := ih acc
      refine ⟨?_, ?_⟩
      · rw [ihm, idsFrom, if_neg (by simp [hht])]
      · rw [ihc, List.countP_cons, hht]
        simp
    | true =>
      obtain ⟨rec, ent, hr, -, -⟩ := recordOf_some inp acc.count hht
      have hstep : buildStep acc inp
          = ⟨acc.count + 1, acc.recs ++ [(mkId inp.cIndex acc.count, rec)], acc.idx ++ [ent]⟩ := by
        rw [buildStep, hr]
      rw [List.foldl_cons, hstep]
      obtain ⟨ihm, ihc⟩ := ih ⟨acc.count + 1, acc.recs ++ [(mkId inp.cIndex acc.count, rec)], acc.idx ++ [ent]⟩
      refine ⟨?_, ?_⟩
      · rw [ihm]
        simp only [List.map_append, List.map_cons, List.map_nil]
        rw [idsFrom, if_pos (by simp [hht])]
        simp [List.append_assoc]
      · rw [ihc, List.countP_cons, hht]
        simp
        omega

theorem idsFrom_shape : ∀ (l : List BuildInput) (c : Nat) (s : Str),
    s ∈ idsFrom l c → ∃ ci n, c ≤ n ∧ s = mkId ci n := by
  intro l
  induction l with
  | nil => intro c s hs; simp [idsFrom] at hs
  | cons inp rest ih =>
    intro c s hs
    rw [idsFrom] at hs
    by_cases hht : hasText inp
    · rw [if_pos hht] at hs
      rcases List.mem_cons.mp hs with h | h
      · exact ⟨inp.cIndex, c, le_refl c, h⟩
      · obtain ⟨ci, n, hn, hmk⟩ := ih (c + 1) s h
        exact ⟨ci, n, by omega, hmk⟩
    · rw [if_neg hht] at hs
      exact ih c s hs

theorem idsFrom_nodup : ∀ (l : List BuildInput) (c : Nat), (idsFrom l c).Nodup := by
  intro l
  induction l with
  | nil => intro c; simp [idsFrom]
  | cons inp rest ih =>
    intro c
    rw [idsFrom]
    by_cases hht : hasText inp
    · rw [if_pos hht]
      refine List.nodup_cons.mpr ⟨?_, ih (c + 1)⟩
      intro hmem
      obtain ⟨ci, n, hn, hmk⟩ := idsFrom_shape rest (c + 1) _ hmem
      have := mkId_ord_inj inp.cIndex c ci n hmk
      omega
    · rw [if_neg hht]
      exact ih c

theorem idsFrom_length : ∀ (l : List BuildInput) (c : Nat),
    (idsFrom l c).length = l.countP hasText := by
  intro l
  induction l with
  | nil => intro c; simp [idsFrom]
  | cons inp rest ih =>
    intro c
    rw [idsFrom, List.countP_cons]
    by_cases hht : hasText inp
    · rw [if_pos hht]
      simp [hht, ih]
    · rw [if_neg hht]
      have : hasText inp = false := by simpa using hht
      simp [this, ih]

theorem foldl_buildStep_entries : ∀ (l : List BuildInput) (acc : BuildAcc),
    (∀ e ∈ acc.recs, e.1 = e.2.id ∧ ∃ n, e.2.id = mkId e.2.conversationIndex n) →
    ∀ e ∈ (l.foldl buildStep acc).recs,
      e.1 = e.2.id ∧ ∃ n, e.2.id = mkId e.2.conversationIndex n := by
  intro l
  induction l with
  | nil => intro acc h; exact h
  | cons inp rest ih =>
    intro acc h
    cases hht : hasText inp with
    | false =>
      have hr := recordOf_none inp acc.count hht
      have hstep : buildStep acc inp = acc := by rw [buildStep, hr]
      rw [List.foldl_cons, hstep]
      exact ih acc h
    | true =>
      obtain ⟨rec, ent, hr, hid, hci⟩ := recordOf_some inp acc.count hht
      have hstep : buildStep acc inp
          = ⟨acc.count + 1, acc.recs ++ [(mkId inp.cIndex acc.count, rec)], acc.idx ++ [ent]⟩ := by
        rw [buildStep, hr]
      rw [List.foldl_cons, hstep]
      apply ih
      intro e he
      rcases List.mem_append.mp he with h1 | h2
      · exact h e h1
      · simp only [List.mem_singleton] at h2
        subst h2
        exact ⟨hid.symm, acc.count, by rw [hci, hid]⟩

/-- Claim C8: within one build, the record table gains exactly one entry per
message with non-empty derived text, every entry's key is the record's own id,
the key sequence is exactly the deterministic
`m-<conversationIndex>-<ordinal>` sequence with the running global ordinal,
and the keys (hence the record ids) of one build are pairwise distinct. -/
theorem buildIndex_ids (convs : List Conversation) :
    (buildAll convs).recs.map Prod.fst = idsFrom (buildInputs convs) 0
    ∧ ((buildAll convs).recs.map Prod.fst).Nodup
    ∧ (buildAll convs).recs.length = (buildInputs convs).countP hasText
    ∧ ∀ e ∈ (buildAll convs).recs,
        e.1 = e.2.id ∧ ∃ n, e.2.id = mkId e.2.conversationIndex n := by
  obtain ⟨hm, hc⟩ := foldl_buildStep_spec (buildInputs convs) ⟨0, [], []⟩
  have hmap : (buildAll convs).recs.map Prod.fst = idsFrom (buildInputs convs) 0 := by
    rw [buildAll, hm]
    simp
  refine ⟨hmap, ?_, ?_, ?_⟩
  · rw [hmap]
    exact idsFrom_nodup _ 0
  · have := congrArg List.length hmap
    rw [List.length_map, idsFrom_length] at this
    exact this
  · exact foldl_buildStep_entries (buildInputs convs) ⟨0, [], []⟩ (by simp)

/-- Concrete instance of `buildIndex_ids` on a two-message conversation:
the minted ids are `m-0-0` and `m-0-1` and the entry keys match record ids. -/
theorem buildIndex_ids_witness :
    (buildAll [⟨some ['T'],
        [⟨some ['a'], some ⟨some ['u'], some 5, some [['h', 'i']]⟩⟩,
         ⟨some ['b'], some ⟨some ['u'], some 7, some [['y', 'o']]⟩⟩]⟩]).recs.map Prod.fst
      = [mkId 0 0, mkId 0 1]
    ∧ (∀ e ∈ (buildAll [(⟨some ['T'],
        [⟨some ['a'], some ⟨some ['u'], some 5, some [['h', 'i']]⟩⟩,
         ⟨some ['b'], some ⟨some ['u'], some 7, some [['y', 'o']]⟩⟩]⟩ : Conversation)]).recs,
        e.1 = e.2.id ∧ ∃ n, e.2.id = mkId e.2.conversationIndex n) :=
  ⟨by decide,
   (buildIndex_ids [⟨some ['T'],
        [⟨some ['a'], some ⟨some ['u'], some 5, some [['h', 'i']]⟩⟩,
         ⟨some ['b'], some ⟨some ['u'], some 7, some [['y', 'o']]⟩⟩]⟩]).2.2.2⟩

theorem segmentLoop_matchParts : ∀ (ms : List ChatMatch) (text : Str)
    (active : Option ChatMatch) (cursor : Nat),
    ((segmentLoop text ms active cursor).filter (fun s => s.isMatch)).map Segment.text
      = ms.map (fun m => sliceNat text m.start m.«end»)
    ∧ ((segmentLoop text ms active cursor).filter (fun s => s.isMatch)).map Segment.isActive
      = ms.map (fun m => isActiveMatch active m) := by
  intro ms
  induction ms with
  | nil =>
    intro text active cursor
    by_cases h : cursor < text.length <;> simp [segmentLoop, h]
  | cons m rest ih =>
    intro text active cursor
    obtain ⟨ih1, ih2⟩ := ih text active m.«end»
    by_cases h : cursor < m.start <;>
      simp [segmentLoop, h, List.filter_append, ih1, ih2]

theorem slice_append_drop (s : Str) (a b : Nat) (hab : a ≤ b) :
    sliceNat s a b ++ s.drop b = s.drop a := by
  rcases le_or_lt b s.length with h | h
  · have hsplit := List.take_append_drop b s
    have hstep : s.drop a = (s.take b).drop a ++ (s.drop b).drop (a - (s.take b).length) := by
      conv_lhs => rw [← hsplit]
      exact List.drop_append_eq_append_drop
    have hz : a - (s.take b).length = 0 := by
      rw [List.length_take]
      omega
    rw [hz, List.drop_zero] at hstep
    exact hstep.symm
  · rw [sliceNat, List.take_of_length_le (show s.length ≤ b by omega),
      List.drop_eq_nil_of_le (show s.length ≤ b by omega), List.append_nil]

theorem sliceNat_self_nil (s : Str) (a : Nat) : sliceNat s a a = [] := by
  rw [sliceNat]
  apply List.drop_eq_nil_of_le
  rw [List.length_take]
  omega

theorem segmentLoop_concat : ∀ (ms : List ChatMatch) (text : Str)
    (active : Option ChatMatch) (cursor : Nat),
    List.Chain' (fun a b => a.«end» ≤ b.start) ms →
    (∀ m ∈ ms, m.start ≤ m.«end» ∧ m.«end» ≤ text.length) →
    (∀ m ∈ ms.head?, cursor ≤ m.start) →
    cursor ≤ text.length →
    ((segmentLoop text ms active cursor).map Segment.text).flatten
      = text.drop cursor := by
  intro ms
  induction ms with
  | nil =>
    intro text active cursor _ _ _ hc
    by_cases h : cursor < text.length
    · simp [segmentLoop, h, sliceNat, List.take_length]
    · rw [segmentLoop]
      simp only [if_neg h]
      rw [List.map_nil, List.flatten_nil, List.drop_eq_nil_of_le (by omega)]
  | cons m rest ih =>
    intro text active cursor hchain hbounds hhead hc
    obtain ⟨hse, hel⟩ := hbounds m (by simp)
    have hcs : cursor ≤ m.start := hhead m (by simp)
    have hrest : ((segmentLoop text rest active m.«end»).map Segment.text).flatten
        = text.drop m.«end» := by
      apply ih text active m.«end» hchain.tail
        (fun x hx => hbounds x (by simp [hx])) ?_ hel
      intro x hx
      have hx' : rest.head? = some x := hx
      cases rest with
      | nil => simp at hx'
      | cons r rest' =>
        simp only [List.head?_cons, Option.some.injEq] at hx'
        subst hx'
        exact (List.chain'_cons'.mp hchain).1 r rfl
    have hgap : ∀ gap : List Segment,
        gap = (if cursor < m.start then [⟨sliceNat text cursor m.start, false, false⟩] else []) →
        (gap.map Segment.text).flatten = sliceNat text cursor m.start := by
      intro gap hgap
      by_cases h : cursor < m.start
      · rw [hgap, if_pos h]
        simp
      · rw [hgap, if_neg h]
        have hce : cursor = m.start := by omega
        rw [hce, sliceNat_self_nil]
        simp
    rw [segmentLoop, List.map_append, List.flatten_append, hgap _ rfl, List.map_cons,
      List.flatten_cons, hrest]
    rw [slice_append_drop text m.start m.«end» hse, slice_append_drop text cursor m.start hcs]

/-- Claim C9: for every text and every list of match spans sorted ascending,
pairwise non-overlapping, and contained in `[0, text.length]`, the highlight
segmenter's parts partition the text (their concatenation is the original
text), the parts marked as ms are exactly the spans' substrings in
order, a part is marked active exactly when the active match has the same
message id and start offset, and `renderChatHighlights` returns the raw text
exactly when the match list is empty and these parts otherwise. -/
theorem renderChatHighlights_spec (text : Str) (ms : List ChatMatch)
    (active : Option ChatMatch)
    (hchain : List.Chain' (fun a b => a.«end» ≤ b.start) ms)
    (hbounds : ∀ m ∈ ms, m.start ≤ m.«end» ∧ m.«end» ≤ text.length) :
    ((segmentLoop text ms active 0).map Segment.text).flatten = text
    ∧ ((segmentLoop text ms active 0).filter (fun s => s.isMatch)).map Segment.text
        = ms.map (fun m => sliceNat text m.start m.«end»)
    ∧ ((segmentLoop text ms active 0).filter (fun s => s.isMatch)).map Segment.isActive
        = ms.map (fun m => isActiveMatch active m)
    ∧ renderChatHighlights text ms active
        = (if ms.isEmpty then .inl text else .inr (segmentLoop text ms active 0)) := by
  obtain ⟨h1, h2⟩ := segmentLoop_matchParts ms text active 0
  refine ⟨?_, h1, h2, rfl⟩
  have := segmentLoop_concat ms text active 0 hchain hbounds
    (fun m _ => Nat.zero_le m.start) (Nat.zero_le text.length)
  simpa using this

/-- Concrete instance of `renderChatHighlights_spec` on the text `"abcde"`
with two adjacent spans, the second active. -/
theorem renderChatHighlights_spec_witness :
    ((segmentLoop "abcde".toList [⟨['x'], 1, 2⟩, ⟨['x'], 2, 4⟩]
        (some ⟨['x'], 2, 4⟩) 0).map Segment.text).flatten = "abcde".toList
    ∧ ((segmentLoop "abcde".toList [⟨['x'], 1, 2⟩, ⟨['x'], 2, 4⟩]
        (some ⟨['x'], 2, 4⟩) 0).filter (fun s => s.isMatch)).map Segment.isActive
        = [⟨['x'], 1, 2⟩, ⟨['x'], 2, 4⟩].map
            (fun m => isActiveMatch (some ⟨['x'], 2, 4⟩) m) :=
  ⟨(renderChatHighlights_spec "abcde".toList [⟨['x'], 1, 2⟩, ⟨['x'], 2, 4⟩]
      (some ⟨['x'], 2, 4⟩) (by simp [List.chain'_cons]) (by decide)).1,
   (renderChatHighlights_spec "abcde".toList [⟨['x'], 1, 2⟩, ⟨['x'], 2, 4⟩]
      (some ⟨['x'], 2, 4⟩) (by simp [List.chain'_cons]) (by decide)).2.2.1⟩

theorem runChunk_inr : ∀ (l : List BuildInput) (acc acc' : BuildAcc),
    runChunk l acc = .inr acc' → acc' = l.foldl buildStep acc := by
  intro l
  induction l with
  | nil =>
    intro acc acc' h
    rw [runChunk] at h
    cases h
    rfl
  | cons inp rest ih =>
    intro acc acc' h
    rw [runChunk] at h
    cases hr : recordOf inp acc.count with
    | none =>
      rw [hr] at h
      rw [List.foldl_cons]
      have hstep : buildStep acc inp = acc := by rw [buildStep, hr]
      rw [hstep]
      exact ih acc acc' h
    | some pr =>
      obtain ⟨r, e⟩ := pr
      rw [hr] at h
      simp only at h
      by_cases hmod : (acc.count + 1) % 500 = 0
      · rw [if_pos hmod] at h
        cases h
      · rw [if_neg hmod] at h
        rw [List.foldl_cons]
        have hstep : buildStep acc inp = ⟨acc.count + 1, acc.recs ++ [r], acc.idx ++ [e]⟩ := by
          rw [buildStep, hr]
        rw [hstep]
        exact ih _ acc' h

theorem runChunk_inl : ∀ (l : List BuildInput) (acc : BuildAcc)
    (rest : List BuildInput) (acc1 : BuildAcc),
    runChunk l acc = .inl (rest, acc1) →
    ∃ pre, l = pre ++ rest ∧ acc1 = pre.foldl buildStep acc := by
  intro l
  induction l with
  | nil =>
    intro acc rest acc1 h
    rw [runChunk] at h
    cases h
  | cons inp rest' ih =>
    intro acc rest acc1 h
    rw [runChunk] at h
    cases hr : recordOf inp acc.count with
    | none =>
      rw [hr] at h
      obtain ⟨pre, hpre, hacc⟩ := ih acc rest acc1 h
      refine ⟨inp :: pre, by rw [List.cons_append, hpre], ?_⟩
      rw [List.foldl_cons]
      have hstep : buildStep acc inp = acc := by rw [buildStep, hr]
      rw [hstep, hacc]
    | some pr =>
      obtain ⟨r, e⟩ := pr
      rw [hr] at h
      simp only at h
      have hstep : buildStep acc inp = ⟨acc.count + 1, acc.recs ++ [r], acc.idx ++ [e]⟩ := by
        rw [buildStep, hr]
      by_cases hmod : (acc.count + 1) % 500 = 0
      · rw [if_pos hmod] at h
        cases h
        refine ⟨[inp], rfl, ?_⟩
        rw [List.foldl_cons, List.foldl_nil, hstep]
      · rw [if_neg hmod] at h
        obtain ⟨pre, hpre, hacc⟩ := ih _ rest acc1 h
        refine ⟨inp :: pre, by rw [List.cons_append, hpre], ?_⟩
        rw [List.foldl_cons, hstep, hacc]

theorem inv_init : Inv initState := by
  refine ⟨rfl, ?_, ?_, ?_⟩
  · intro t ht
    simp [initState] at ht
  · intro h
    simp [initState] at h
  · intro _
    rfl

theorem inv_stepInvoke (s : SysState) (convs : List Conversation) (h : Inv s) :
    Inv (stepInvoke s convs) := by
  obtain ⟨h1, h2, h3, h4⟩ := h
  rw [stepInvoke]
  by_cases hc : convs.length = 0
  · rw [if_pos hc]
    refine ⟨by simp [h1], ?_, ?_, ?_⟩
    · intro t ht
      obtain ⟨ha, hb, hcons⟩ := h2 t ht
      refine ⟨?_, ?_, hcons⟩
      · show t.buildId ≤ s.gen + 1
        omega
      · intro hbid
        have hbid' : t.buildId = s.gen + 1 := hbid
        omega
    · intro hst
      simp at hst
    · intro _
      rfl
  · rw [if_neg hc]
    cases hr : runChunk (buildInputs convs) ⟨0, [], []⟩ with
    | inl p =>
      obtain ⟨rest, acc⟩ := p
      refine ⟨by simp [h1], ?_, ?_, ?_⟩
      · intro t ht
        have ht' : t ∈ s.tasks ++ [⟨s.gen + 1, convs, rest, acc⟩] := ht
        rcases List.mem_append.mp ht' with hin | hin
        · obtain ⟨ha, hb, hcons⟩ := h2 t hin
          refine ⟨?_, ?_, hcons⟩
          · show t.buildId ≤ s.gen + 1
            omega
          · intro hbid
            have hbid' : t.buildId = s.gen + 1 := hbid
            omega
        · simp only [List.mem_singleton] at hin
          subst hin
          refine ⟨le_refl _, fun _ => rfl, ?_⟩
          obtain ⟨pre, hpre, hacc⟩ := runChunk_inl _ _ _ _ hr
          exact ⟨pre, hpre, hacc⟩
      · intro hst
        simp at hst
      · intro _
        rfl
    | inr acc =>
      refine ⟨by simp [h1], ?_, ?_, ?_⟩
      · intro t ht
        obtain ⟨ha, hb, hcons⟩ := h2 t ht
        refine ⟨?_, ?_, hcons⟩
        · show t.buildId ≤ s.gen + 1
          omega
        · intro hbid
          have hbid' : t.buildId = s.gen + 1 := hbid
          omega
      · intro _
        refine ⟨convs, rfl, ?_, ?_⟩
        · have hacc := runChunk_inr _ _ _ hr
          show acc.recs = (buildAll convs).recs
          rw [buildAll, ← hacc]
        · have hacc := runChunk_inr _ _ _ hr
          show acc.idx = (buildAll convs).idx
          rw [buildAll, ← hacc]
      · intro hst
        exact absurd rfl hst

theorem inv_stepResume (s : SysState) (i : Nat) (h : Inv s) :
    Inv (stepResume s i) := by
  obtain ⟨h1, h2, h3, h4⟩ := h
  rw [stepResume]
  cases ht : s.tasks[i]? with
  | none =>
    simp only [ht]
    exact ⟨h1, h2, h3, h4⟩
  | some t =>
    simp only [ht]
    have htm : t ∈ s.tasks := List.getElem?_mem ht
    obtain ⟨hle, hhead, hcons⟩ := h2 t htm
    by_cases hbid : t.buildId ≠ s.gen
    · rw [if_pos hbid]
      refine ⟨h1, ?_, h3, h4⟩
      intro t' ht'
      exact h2 t' (List.mem_of_mem_eraseIdx ht')
    · rw [if_neg hbid]
      push_neg at hbid
      cases hr : runChunk t.remaining t.acc with
      | inl p =>
        obtain ⟨rest, acc⟩ := p
        refine ⟨h1, ?_, h3, h4⟩
        intro t' ht'
        have ht'' : t' ∈ s.tasks.eraseIdx i ++ [⟨t.buildId, t.convs, rest, acc⟩] := ht'
        rcases List.mem_append.mp ht'' with hin | hin
        · exact h2 t' (List.mem_of_mem_eraseIdx hin)
        · simp only [List.mem_singleton] at hin
          subst hin
          refine ⟨hle, fun hb => hhead hb, ?_⟩
          obtain ⟨pre, hpre, hacc⟩ := hcons
          obtain ⟨pre2, hpre2, hacc2⟩ := runChunk_inl _ _ _ _ hr
          refine ⟨pre ++ pre2, ?_, ?_⟩
          · show buildInputs t.convs = (pre ++ pre2) ++ rest
            rw [hpre, hpre2, List.append_assoc]
          · show acc = (pre ++ pre2).foldl buildStep ⟨0, [], []⟩
            rw [List.foldl_append, ← hacc, hacc2]
      | inr acc =>
        have hfull : acc = (buildInputs t.convs).foldl buildStep ⟨0, [], []⟩ := by
          obtain ⟨pre, hpre, haccp⟩ := hcons
          have hacc := runChunk_inr _ _ _ hr
          rw [hpre, List.foldl_append, ← haccp, ← hacc]
        refine ⟨h1, ?_, ?_, ?_⟩
        · intro t' ht'
          exact h2 t' (List.mem_of_mem_eraseIdx ht')
        · intro _
          refine ⟨t.convs, hhead hbid, ?_, ?_⟩
          · show acc.recs = (buildAll t.convs).recs
            rw [buildAll, ← hfull]
          · show acc.idx = (buildAll t.convs).idx
            rw [buildAll, ← hfull]
        · intro hst
          exact absurd rfl hst

theorem inv_stepQuery (s : SysState) (q : Str) (h : Inv s) :
    Inv (stepQuery s q) := by
  obtain ⟨h1, h2, h3, h4⟩ := h
  rw [stepQuery]
  by_cases he : (jsTrim q).isEmpty
  · rw [if_pos he]
    exact ⟨h1, h2, h3, fun _ => rfl⟩
  · rw [if_neg he]
    by_cases hs : s.status ≠ .ready
    · rw [if_pos hs]
      exact ⟨h1, h2, h3, h4⟩
    · rw [if_neg hs]
      push_neg at hs
      exact ⟨h1, h2, h3, fun hcon => absurd hs hcon⟩

theorem inv_step (s : SysState) (e : SysEvent) (h : Inv s) : Inv (stepSys s e) := by
  cases e with
  | invoke convs => exact inv_stepInvoke s convs h
  | resume i => exact inv_stepResume s i h
  | query q => exact inv_stepQuery s q h

theorem inv_foldl : ∀ (es : List SysEvent) (s : SysState),
    Inv s → Inv (es.foldl stepSys s) := by
  intro es
  induction es with
  | nil => intro s h; exact h
  | cons e rest ih => intro s h; exact ih _ (inv_step s e h)

theorem inv_run (es : List SysEvent) : Inv (runEvents es) :=
  inv_foldl es initState inv_init

theorem stepSys_gen (s : SysState) (e : SysEvent) :
    (stepSys s e).gen = s.gen + (match e with | .invoke _ => 1 | _ => 0) := by
  cases e with
  | invoke convs =>
    rw [stepSys, stepInvoke]
    by_cases hc : convs.length = 0
    · rw [if_pos hc]
    · rw [if_neg hc]
      cases hr : runChunk (buildInputs convs) ⟨0, [], []⟩ with
      | inl p =>
        obtain ⟨rest, acc⟩ := p
        rfl
      | inr acc => rfl
  | resume i =>
    rw [stepSys, stepResume]
    cases ht : s.tasks[i]? with
    | none =>
      simp only [ht]
      rfl
    | some t =>
      simp only [ht]
      by_cases hbid : t.buildId ≠ s.gen
      · rw [if_pos hbid]
        rfl
      · rw [if_neg hbid]
        cases hr : runChunk t.remaining t.acc with
        | inl p =>
          obtain ⟨rest, acc⟩ := p
          rfl
        | inr acc => rfl
  | query q =>
    rw [stepSys, stepQuery]
    by_cases he : (jsTrim q).isEmpty
    · rw [if_pos he]
      rfl
    · rw [if_neg he]
      by_cases hs : s.status ≠ .ready
      · rw [if_pos hs]
        rfl
      · rw [if_neg hs]
        rfl

theorem gen_foldl : ∀ (es : List SysEvent) (s : SysState),
    (es.foldl stepSys s).gen = s.gen + countInvokes es := by
  intro es
  induction es with
  | nil =>
    intro s
    simp [countInvokes]
  | cons e rest ih =>
    intro s
    rw [List.foldl_cons, ih, stepSys_gen]
    have hcc : countInvokes (e :: rest)
        = countInvokes rest + (match e with | SysEvent.invoke _ => 1 | _ => 0) := by
      cases e <;> simp [countInvokes, List.countP_cons]
    rw [hcc]
    cases e <;> omega

/-- Claim C1: a superseded build never publishes — resuming any task whose
captured build id differs from the current generation counter leaves the
published index, record table, status, results, and counter unchanged (the
task aborts at its yield point); in every reachable state that reports
`ready`, the published record table and index are exactly the full build of
the most recent invocation's conversations; and the generation counter (and
invocation history) counts exactly the `buildIndex` invocations, so the only
build that can publish is the most recent one. -/
theorem buildIndex_staleness :
    (∀ (s : SysState) (i : Nat) (t : BuildTask),
      s.tasks[i]? = some t → t.buildId ≠ s.gen →
        (stepSys s (.resume i)).pubIndex = s.pubIndex
        ∧ (stepSys s (.resume i)).pubRecords = s.pubRecords
        ∧ (stepSys s (.resume i)).status = s.status
        ∧ (stepSys s (.resume i)).results = s.results
        ∧ (stepSys s (.resume i)).gen = s.gen)
    ∧ (∀ es : List SysEvent, (runEvents es).status = .ready →
        ∃ cs, (runEvents es).history.head? = some cs
          ∧ (runEvents es).pubRecords = (buildAll cs).recs
          ∧ (runEvents es).pubIndex = (buildAll cs).idx)
    ∧ (∀ es : List SysEvent, (runEvents es).gen = countInvokes es
        ∧ (runEvents es).history.length = countInvokes es) := by
  refine ⟨?_, ?_, ?_⟩
  · intro s i t ht hne
    have hstep : stepSys s (.resume i) = { s with tasks := s.tasks.eraseIdx i } := by
      rw [stepSys, stepResume, ht]
      simp only [if_pos hne]
    rw [hstep]
    exact ⟨rfl, rfl, rfl, rfl, rfl⟩
  · intro es hready
    exact (inv_run es).2.2.1 hready
  · intro es
    have hgen : (runEvents es).gen = countInvokes es := by
      rw [runEvents, gen_foldl]
      simp [initState]
    exact ⟨hgen, by rw [← (inv_run es).1, hgen]⟩

/-- Concrete instances of `buildIndex_staleness`: resuming a stale task in a
state at generation 2 leaves the status untouched, and a one-message build
run to completion publishes the full build of the invoked conversations. -/
theorem buildIndex_staleness_witness :
    ((stepSys ⟨2, [[], []], [⟨1, [], [], ⟨0, [], []⟩⟩], .building, [], [], []⟩
        (.resume 0)).status
      = (⟨2, [[], []], [⟨1, [], [], ⟨0, [], []⟩⟩], .building, [], [], []⟩ : SysState).status)
    ∧ (∃ cs, (runEvents [SysEvent.invoke
          [⟨some ['T'], [⟨some ['a'], some ⟨some ['u'], some 5, some [['h', 'i']]⟩⟩]⟩]]).history.head?
            = some cs
        ∧ (runEvents [SysEvent.invoke
            [⟨some ['T'], [⟨some ['a'], some ⟨some ['u'], some 5, some [['h', 'i']]⟩⟩]⟩]]).pubRecords
            = (buildAll cs).recs
        ∧ (runEvents [SysEvent.invoke
            [⟨some ['T'], [⟨some ['a'], some ⟨some ['u'], some 5, some [['h', 'i']]⟩⟩]⟩]]).pubIndex
            = (buildAll cs).idx) :=
  ⟨(buildIndex_staleness.1 ⟨2, [[], []], [⟨1, [], [], ⟨0, [], []⟩⟩], .building, [], [], []⟩
      0 ⟨1, [], [], ⟨0, [], []⟩⟩ rfl (by decide)).2.2.1,
   buildIndex_staleness.2.1 [SysEvent.invoke
      [⟨some ['T'], [⟨some ['a'], some ⟨some ['u'], some 5, some [['h', 'i']]⟩⟩]⟩]] (by decide)⟩

/-- Claim C6: running the query effect in any reachable state yields the
empty result list when the trimmed query is empty or the status is not
`ready` (in the latter case the effect does not touch the results, which the
invariant shows are already empty); otherwise the published results are the
index lookup's ids — at most 200 of them — resolved against the current
record table with unresolvable ids silently skipped, each result carrying a
snippet built from its record's text, in the order of the ids returned by
the lookup. -/
theorem corpusQuery_spec (es : List SysEvent) (q : Str) :
    (((jsTrim q).isEmpty = true ∨ (runEvents es).status ≠ .ready) →
      (stepSys (runEvents es) (.query q)).results = [])
    ∧ ((jsTrim q).isEmpty = false → (runEvents es).status = .ready →
      (stepSys (runEvents es) (.query q)).results = runQueryResults (runEvents es) q
      ∧ (stepSys (runEvents es) (.query q)).results.length ≤ 200
      ∧ (∀ r ∈ (stepSys (runEvents es) (.query q)).results,
          List.lookup r.record.id (runEvents es).pubRecords = some r.record
          ∧ r.snippet = buildSnippet r.record.text (jsTrim q))
      ∧ (stepSys (runEvents es) (.query q)).results.map (fun r => r.record)
          = (flexSearch (runEvents es).pubIndex (jsTrim q) 200).filterMap
              (fun id => List.lookup id (runEvents es).pubRecords)) := by
  obtain ⟨h1, h2, h3, h4⟩ := inv_run es
  constructor
  · intro hcond
    by_cases he : (jsTrim q).isEmpty
    · have hstep : stepSys (runEvents es) (.query q)
          = { runEvents es with results := [] } := by
        rw [stepSys, stepQuery, if_pos he]
      rw [hstep]
    · rcases hcond with hc | hs
      · rw [hc] at he
        exact absurd rfl he
      · have hstep : stepSys (runEvents es) (.query q) = runEvents es := by
          rw [stepSys, stepQuery, if_neg he, if_pos hs]
        rw [hstep]
        exact h4 hs
  · intro he hready
    have he' : ¬(jsTrim q).isEmpty = true := by rw [he]; simp
    have hs' : ¬((runEvents es).status ≠ .ready) := by rw [hready]; simp
    have hres : (stepSys (runEvents es) (.query q)).results
        = runQueryResults (runEvents es) q := by
      have hstep : stepSys (runEvents es) (.query q)
          = { runEvents es with results := runQueryResults (runEvents es) q } := by
        rw [stepSys, stepQuery, if_neg he', if_neg hs']
      rw [hstep]
    refine ⟨hres, ?_, ?_, ?_⟩
    · rw [hres, runQueryResults]
      have hfl : (flexSearch (runEvents es).pubIndex (jsTrim q) 200).length ≤ 200 := by
        rw [flexSearch, List.length_take]
        omega
      exact le_trans (List.length_filterMap_le _ _) hfl
    · intro r hr
      rw [hres, runQueryResults] at hr
      obtain ⟨id, hid, hf⟩ := List.mem_filterMap.mp hr
      cases hlook : List.lookup id (runEvents es).pubRecords with
      | none =>
        rw [hlook] at hf
        simp at hf
      | some rec =>
        rw [hlook] at hf
        simp only [Option.map_some', Option.some.injEq] at hf
        obtain ⟨cs, hcs, hrecs, hidx⟩ := h3 hready
        have hkey : ∀ e ∈ (runEvents es).pubRecords, e.1 = e.2.id := by
          rw [hrecs]
          intro e hmem
          exact (foldl_buildStep_entries (buildInputs cs) ⟨0, [], []⟩ (by simp) e hmem).1
        obtain ⟨l₁, l₂, hsplit, -⟩ := List.lookup_eq_some_iff.mp hlook
        have hmem : (id, rec) ∈ (runEvents es).pubRecords := by
          rw [hsplit]
          simp
        have hid_eq : id = rec.id := hkey (id, rec) hmem
        constructor
        · rw [← hf]
          show List.lookup rec.id (runEvents es).pubRecords = some rec
          rw [← hid_eq]
          exact hlook
        · rw [← hf]
    · rw [hres, runQueryResults, List.map_filterMap]
      congr 1
      funext id
      cases List.lookup id (runEvents es).pubRecords <;> simp

/-- Concrete instances of `corpusQuery_spec` after a completed one-message
build: a whitespace query yields no results, a real query obeys the 200
bound. -/
theorem corpusQuery_spec_witness :
    (stepSys (runEvents [SysEvent.invoke
        [⟨some ['T'], [⟨some ['a'], some ⟨some ['u'], some 5, some [['h', 'i']]⟩⟩]⟩]])
      (.query [' '])).results = []
    ∧ (stepSys (runEvents [SysEvent.invoke
        [⟨some ['T'], [⟨some ['a'], some ⟨some ['u'], some 5, some [['h', 'i']]⟩⟩]⟩]])
      (.query ['h', 'i'])).results.length ≤ 200 :=
  ⟨(corpusQuery_spec [SysEvent.invoke
      [⟨some ['T'], [⟨some ['a'], some ⟨some ['u'], some 5, some [['h', 'i']]⟩⟩]⟩]]
      [' ']).1 (Or.inl (by decide)),
   ((corpusQuery_spec [SysEvent.invoke
      [⟨some ['T'], [⟨some ['a'], some ⟨some ['u'], some 5, some [['h', 'i']]⟩⟩]⟩]]
      ['h', 'i']).2 (by decide) (by decide)).2.1⟩

end ChatView
